import Mathlib

/-!
Shallow embedding of the trigram mapping engine of the
`keyboard_layout_optimizer` repository
(`layout_evaluation/src/ngram_mapper/trigram_mapper.rs` and
`layout_evaluation/src/ngram_mapper/common.rs`).

Machine `f64` weights are modelled as rationals (`Rat`); all claims
considered here concern the algebraic combination structure of weights
(sums, products, exact halving), which the rational model reflects.
`LayerKeyIndex` (`u16`) is modelled as `Nat`.
-/

/-- A layer key index (`LayerKeyIndex`, a `u16` in the source). -/
abbrev K := Nat

/-- Weights (`f64` in the source, modelled as rationals). -/
abbrev W := Rat

/-- The tagged modifier classification returned by the layout's modifier
decomposition (`LayerModifiers` in `keyboard_layout::layout`): none, or a
list of modifier key indices with hold / one-shot / lock semantics. -/
inductive LayerModifiers where
  | nomods : LayerModifiers
  | hold (mods : List K) : LayerModifiers
  | oneShot (mods : List K) : LayerModifiers
  | lock (mods : List K) : LayerModifiers
deriving DecidableEq, Repr

/-- Whether the classification's layer modifier type is `lock`
(`LayerModifiers::layer_modifier_type().is_lock()`). -/
def LayerModifiers.isLock : LayerModifiers → Bool
  | .lock _ => true
  | _ => false

/-- Whether the classification is `Hold` (used for pattern matching). -/
def LayerModifiers.isHold : LayerModifiers → Bool
  | .hold _ => true
  | _ => false

/-- Whether the classification is `OneShot`. -/
def LayerModifiers.isOneShot : LayerModifiers → Bool
  | .oneShot _ => true
  | _ => false

/-- The read-only key descriptor exposed by the layout for a `LayerKeyIndex`
(the fields of `LayerKey` the mapper reads: symbol, layer, modifiers). -/
structure LayerKey where
  symbol : Char
  layer : Nat
  modifiers : LayerModifiers
deriving DecidableEq, Repr

/-- The external layout interface, as consumed by the trigram mapper:
key descriptor resolution, symbol lookup, base-key lookup and the three
capability flags.  The layout is an external collaborator of the mapper;
only the operations the mapper calls are modelled. -/
structure Layout where
  layerkey : K → LayerKey
  symbol_index : Char → Option K
  base_index : K → K
  has_one_shot_layers : Bool
  has_hold_layers : Bool
  has_lock_layers : Bool

/-- Modifier decomposition (`layout.resolve_modifiers`): the base key index
together with the key's modifier classification. -/
def Layout.resolve_modifiers (l : Layout) (k : K) : K × LayerModifiers :=
  (l.base_index k, (l.layerkey k).modifiers)

/-- The key-trigram accumulator (`TrigramIndices`, an `AHashMap` from key
triples to weights) modelled as an association list with unique keys. -/
abbrev TrigramIndices := List ((K × K × K) × W)

/-- The intermediate `Vec` of key triples with weights
(`TrigramIndicesVec`), which may contain duplicate triples. -/
abbrev TrigramIndicesVec := List ((K × K × K) × W)

/-- Modelled from the spec: the accumulator's `insert_or_add_weight`
operation (its trait impl is outside the two mapper source files); the spec
describes it as a hash map "accumulate" operation, insert-or-add rather
than insert-overwrite. -/
def insertOrAddWeight (m : TrigramIndices) (t : K × K × K) (w : W) :
    TrigramIndices :=
  match m with
  | [] => [(t, w)]
  | e :: rest =>
      if e.1 = t then (e.1, e.2 + w) :: rest
      else e :: insertOrAddWeight rest t w

/-- A hash map `insert`, as performed by `collect()` on an iterator of
key-value pairs: a later entry with the same key overwrites the earlier
one. -/
def insertOverwrite (m : TrigramIndices) (t : K × K × K) (w : W) :
    TrigramIndices :=
  match m with
  | [] => [(t, w)]
  | e :: rest =>
      if e.1 = t then (t, w) :: rest
      else e :: insertOverwrite rest t w

/-- The `trigram_keys_vec.clone().into_iter().collect()` conversion on the
no-hold-processing branch of `layerkey_indices`: plain hash map collection,
overwriting on duplicate keys. -/
def collectMap (v : TrigramIndicesVec) : TrigramIndices :=
  v.foldl (fun m e => insertOverwrite m e.1 e.2) []

/-- Fold a list of weighted triples into an accumulator with
insert-or-add. -/
def accumulate (m : TrigramIndices) (v : List ((K × K × K) × W)) :
    TrigramIndices :=
  v.foldl (fun m e => insertOrAddWeight m e.1 e.2) m

/-- The weight stored in the accumulator for a triple (0 when absent). -/
def getW (m : TrigramIndices) (t : K × K × K) : W :=
  match m with
  | [] => 0
  | e :: rest => if e.1 = t then e.2 else getW rest t

/-- The key set of the accumulator, as a list. -/
def keysOf (m : TrigramIndices) : List (K × K × K) := m.map Prod.fst

/-- The character trigram table (`Trigrams.grams`), in iteration order. -/
abbrev Trigrams := List ((Char × Char × Char) × W)

/-- The `map_trigrams` translator: turns each character trigram into a key
triple via the layout's symbol lookup, dropping line-break-crossing
trigrams when requested, and accumulating the weight of trigrams with any
unknown character into the not-found weight. -/
def map_trigrams (trigrams : Trigrams) (layout : Layout)
    (exclude_line_breaks : Bool) : TrigramIndicesVec × W :=
  match trigrams with
  | [] => ([], 0)
  | ((c1, c2, c3), weight) :: rest =>
      let r := map_trigrams rest layout exclude_line_breaks
      if exclude_line_breaks ∧
          ((c1 = '\n' ∧ c2 ≠ '\n') ∨ (c2 = '\n' ∧ c3 ≠ '\n')) then
        r
      else
        match layout.symbol_index c1 with
        | none => (r.1, r.2 + weight)
        | some idx1 =>
            match layout.symbol_index c2 with
            | none => (r.1, r.2 + weight)
            | some idx2 =>
                match layout.symbol_index c3 with
                | none => (r.1, r.2 + weight)
                | some idx3 => (((idx1, idx2, idx3), weight) :: r.1, r.2)

/-- `take_one_layerkey` from `common.rs`: the base key and every modifier,
each with the unchanged weight. -/
def take_one_layerkey (base_key : K) (modifiers : List K) (weight : W) :
    List (K × W) :=
  (base_key, weight) :: modifiers.map (fun m => (m, weight))

/-- Inner recursion of `take_two_layerkey`: the enumerated loop over
`modifiers` with its `skip(i + 1)` inner loop. -/
def take_two_aux (base_key : K) (weight adj : W) :
    List K → List ((K × K) × W)
  | [] => []
  | m1 :: rest =>
      (((m1, base_key), weight) ::
        rest.flatMap (fun m2 =>
          if m1 ≠ m2 then
            [((m1, m2), adj * weight), ((m2, m1), adj * weight)]
          else [])) ++
      take_two_aux base_key weight adj rest

/-- `take_two_layerkey` from `common.rs`: every (modifier, base) pair with
unchanged weight, plus both orderings of each pair of distinct modifiers
with the same-key adjustment applied. -/
def take_two_layerkey (base_key : K) (modifiers : List K) (weight : W)
    (same_key_mod_adjustment : W) : List ((K × K) × W) :=
  take_two_aux base_key weight same_key_mod_adjustment modifiers

/-- Inner recursion of `take_three_layerkey`: the enumerated loop over
`modifiers`, whose inner loop runs over `skip(i + 1)` and whose innermost
loop runs over `skip(i + 2)` of the original list (`i` being the outer
index). -/
def take_three_aux (base_key : K) (weight adj : W) :
    List K → List ((K × K × K) × W)
  | [] => []
  | m1 :: rest =>
      (rest.flatMap (fun m2 =>
        ((m1, m2, base_key), adj * weight) ::
        ((m2, m1, base_key), adj * weight) ::
        (rest.drop 1).flatMap (fun m3 =>
          [((m1, m2, m3), adj * adj * weight),
           ((m1, m3, m2), adj * adj * weight),
           ((m2, m1, m3), adj * adj * weight),
           ((m2, m3, m1), adj * adj * weight),
           ((m3, m1, m2), adj * adj * weight),
           ((m3, m2, m1), adj * adj * weight)]))) ++
      take_three_aux base_key weight adj rest

/-- The sequence of elements the take-three enumeration pushes, in push
order: both (mod, mod, base) orderings for each pair of modifiers with the
adjustment applied, plus, for each element of `skip(i + 2)`, six
adjustment-squared triples of modifiers.  Modelled from the spec: the lazy
`TakeThreeLayerKey` iterator used by the hold pass (defined outside the
two mapper source files) yields this same sequence on demand, with no
capacity limit. -/
def take_three_pushes (base_key : K) (modifiers : List K) (weight : W)
    (same_key_mod_adjustment : W) : List ((K × K × K) × W) :=
  take_three_aux base_key weight same_key_mod_adjustment modifiers

/-- `take_three_layerkey` from `common.rs`: the eager enumeration collects
its pushes into a tinyvec `ArrayVec` of capacity 2, whose `push` panics
once the container is full; `none` models that panic, reached as soon as
the enumeration attempts a third push. -/
def take_three_layerkey (base_key : K) (modifiers : List K) (weight : W)
    (same_key_mod_adjustment : W) : Option (List ((K × K × K) × W)) :=
  if (take_three_pushes base_key modifiers weight
      same_key_mod_adjustment).length ≤ 2 then
    some (take_three_pushes base_key modifiers weight
      same_key_mod_adjustment)
  else none

/-- The split-modifiers configuration (`SplitModifiersConfig`): whether
hold-layer splitting is enabled and the same-key simultaneity factor. -/
structure SplitModifiersConfig where
  enabled : Bool
  same_key_mod_factor : W

/-- The resolved (key, modifier-list) pair used by the hold pass: a
hold-classified key becomes its base key with its modifier list, any other
key stays unchanged with no modifiers. -/
def holdKeyMods (layout : Layout) (k : K) : K × List K :=
  match layout.resolve_modifiers k with
  | (base, .hold mods) => (base, mods)
  | _ => (k, [])

/-- The full candidate list one input entry contributes in
`process_hold_layers`, in source order: the five filtered take-one /
take-two combination patterns, then the three unfiltered take-three
expansions.  `TakeOneLayerKey`, `TakeTwoLayerKey` and `TakeThreeLayerKey`
are modelled from the spec: the lazy iterator forms of the `common.rs`
enumerations (their struct definitions live outside the two mapper source
files), yielding the same push sequences on demand with no capacity
limit — hence `take_three_pushes` here. -/
def holdCandidates (cfg : SplitModifiersConfig) (layout : Layout)
    (entry : (K × K × K) × W) : List ((K × K × K) × W) :=
  let k1 := entry.1.1
  let k2 := entry.1.2.1
  let k3 := entry.1.2.2
  let w := entry.2
  let f := cfg.same_key_mod_factor
  let r1 := holdKeyMods layout k1
  let r2 := holdKeyMods layout k2
  let r3 := holdKeyMods layout k3
  let t1one := take_one_layerkey r1.1 r1.2 w
  let t2one := take_one_layerkey r2.1 r2.2 w
  let t3one := take_one_layerkey r3.1 r3.2 w
  let t1two := take_two_layerkey r1.1 r1.2 w f
  let t2two := take_two_layerkey r2.1 r2.2 w f
  let t3two := take_two_layerkey r3.1 r3.2 w f
  (t1one.flatMap (fun e1 => t2one.flatMap (fun e2 => t3one.filterMap (fun e3 =>
    if e1.1 ≠ e2.1 ∧ e2.1 ≠ e3.1 then some ((e1.1, e2.1, e3.1), w)
    else none)))) ++
  (t1two.flatMap (fun e12 => t2one.filterMap (fun e3 =>
    if e12.1.1 ≠ e12.1.2 ∧ e12.1.2 ≠ e3.1 then
      some ((e12.1.1, e12.1.2, e3.1), e12.2)
    else none))) ++
  (t1one.flatMap (fun e1 => t2two.filterMap (fun e23 =>
    if e1.1 ≠ e23.1.1 ∧ e23.1.1 ≠ e23.1.2 then
      some ((e1.1, e23.1.1, e23.1.2), e23.2)
    else none))) ++
  (t2two.flatMap (fun e12 => t3one.filterMap (fun e3 =>
    if e12.1.1 ≠ e12.1.2 ∧ e12.1.2 ≠ e3.1 then
      some ((e12.1.1, e12.1.2, e3.1), e12.2)
    else none))) ++
  (t2one.flatMap (fun e1 => t3two.filterMap (fun e23 =>
    if e1.1 ≠ e23.1.1 ∧ e23.1.1 ≠ e23.1.2 then
      some ((e1.1, e23.1.1, e23.1.2), e23.2)
    else none))) ++
  take_three_pushes r1.1 r1.2 w f ++
  take_three_pushes r2.1 r2.2 w f ++
  take_three_pushes r3.1 r3.2 w f

/-- `process_hold_layers`: every input entry's candidate triples are merged
into a fresh accumulator with insert-or-add. -/
def process_hold_layers (cfg : SplitModifiersConfig)
    (trigrams : TrigramIndicesVec) (layout : Layout) : TrigramIndices :=
  trigrams.foldl (fun m entry => accumulate m (holdCandidates cfg layout entry)) []

/-- Width-3 sliding windows of a key sequence, as produced by
`zip(skip(1)).zip(skip(2))`. -/
def windows3 (l : List K) : List (K × K × K) :=
  ((l.zip (l.drop 1)).zip (l.drop 2)).map (fun p => (p.1.1, p.1.2, p.2))

/-- The physical key sequence one position contributes in
`process_one_shot_layers`: a one-shot-classified key becomes its modifiers
followed by its base key; any other key stays as a one-element sequence. -/
def oneShotKeySeq (layout : Layout) (k : K) : List K :=
  match layout.resolve_modifiers k with
  | (base, .oneShot mods) => mods ++ [base]
  | _ => [k]

/-- `process_one_shot_layers`: concatenate the three positions' key
sequences and emit every width-3 window with the unchanged entry weight. -/
def process_one_shot_layers (trigrams : TrigramIndicesVec)
    (layout : Layout) : TrigramIndicesVec :=
  trigrams.flatMap (fun entry =>
    let keys := oneShotKeySeq layout entry.1.1 ++
      oneShotKeySeq layout entry.1.2.1 ++ oneShotKeySeq layout entry.1.2.2
    (windows3 keys).map (fun t => (t, entry.2)))

/-- The seven optional-slot lists of the lock resolver's general path, in
source order: key 1, the modifiers after position 1, the modifiers before
position 2, key 2, the modifiers after position 2, the modifiers before
position 3, key 3; a `none` entry means "no key at this slot". -/
structure LockSlots where
  key_slot_1 : List (Option K)
  mods_after_1 : List (Option K)
  mods_before_2 : List (Option K)
  key_slot_2 : List (Option K)
  mods_after_2 : List (Option K)
  mods_before_3 : List (Option K)
  key_slot_3 : List (Option K)
deriving DecidableEq, Repr

/-- The seven slot lists in source order, for building the Cartesian
product of typing paths. -/
def LockSlots.asList (s : LockSlots) : List (List (Option K)) :=
  [s.key_slot_1, s.mods_after_1, s.mods_before_2, s.key_slot_2,
   s.mods_after_2, s.mods_before_3, s.key_slot_3]

/-- Compute the lock resolver general path's seven slot lists for a key
triple, with the source's whitespace-adjacency and same-layer
exemptions. -/
def lockSlots (layout : Layout) (k1 k2 k3 : K) : LockSlots :=
  let lk1 := layout.layerkey k1
  let lk2 := layout.layerkey k2
  let lk3 := layout.layerkey k3
  let base1 := layout.base_index k1
  let base2 := layout.base_index k2
  let base3 := layout.base_index k3
  let p1 :=
    match lk1.modifiers with
    | .hold mods =>
        let m := if lk1.symbol.isWhitespace ∨ lk1.layer = lk2.layer ∨
            (lk2.symbol.isWhitespace ∧ lk1.layer = lk3.layer) ∨
            (lk2.symbol.isWhitespace ∧ lk3.symbol.isWhitespace) then
          [none]
        else mods.map some
        ([some base1], m)
    | _ => ([some k1], [none])
  let p2 :=
    match lk2.modifiers with
    | .hold mods =>
        let mb := if lk1.symbol.isWhitespace ∨ lk2.symbol.isWhitespace ∨
            lk1.layer = lk2.layer then [none]
          else mods.map some
        let ma := if lk2.symbol.isWhitespace ∨ lk3.symbol.isWhitespace ∨
            lk2.layer = lk3.layer then [none]
          else mods.map some
        (mb, [some base2], ma)
    | _ => ([none], [some k2], [none])
  let p3 :=
    match lk3.modifiers with
    | .hold mods =>
        let m := if lk3.symbol.isWhitespace ∨ lk2.layer = lk3.layer ∨
            (lk2.symbol.isWhitespace ∧ lk1.layer = lk3.layer) ∨
            (lk1.symbol.isWhitespace ∧ lk2.symbol.isWhitespace) then
          [none]
        else mods.map some
        (m, [some base3])
    | _ => ([none], [some k3])
  ⟨p1.1, p1.2, p2.1, p2.2.1, p2.2.2, p3.1, p3.2⟩

/-- The per-path weight of the lock resolver's general path: the original
weight divided in turn by the lengths of the four ambiguous slot lists. -/
def lockWPerPath (layout : Layout) (k1 k2 k3 : K) (w : W) : W :=
  let s := lockSlots layout k1 k2 k3
  w / (s.mods_after_1.length : W) / (s.mods_before_2.length : W) /
    (s.mods_after_2.length : W) / (s.mods_before_3.length : W)

/-- The Cartesian product of a list of slot lists: every way of choosing
one element from each slot, in slot order (the source's seven nested
`for_each` loops). -/
def slotProduct (slots : List (List (Option K))) : List (List (Option K)) :=
  slots.foldr
    (fun slot acc => slot.flatMap (fun c => acc.map (fun p => c :: p))) [[]]

/-- Every concrete typing path of the lock resolver's general branch: one
choice from each of the seven slot lists, with `none` slots dropped. -/
def lockPaths (layout : Layout) (k1 k2 k3 : K) : List (List K) :=
  (slotProduct (lockSlots layout k1 k2 k3).asList).map
    (fun p => p.filterMap id)

/-- The merges the lock resolver's general branch performs for one entry:
every width-3 window of every concrete typing path, each with the per-path
weight. -/
def lockGeneralInsertions (layout : Layout) (k1 k2 k3 : K) (w : W) :
    List ((K × K × K) × W) :=
  (lockPaths layout k1 k2 k3).flatMap (fun path =>
    (windows3 path).map (fun t => (t, lockWPerPath layout k1 k2 k3 w)))

/-- The list of (triple, weight) merges one entry performs in
`process_lock_layers`: pass-through when no key is lock-classified, the
base-triple fast path when the first key is lock-classified and all three
keys share a layer, and otherwise every width-3 window of every concrete
typing path with the per-path weight. -/
def lockEntryInsertions (layout : Layout) (entry : (K × K × K) × W) :
    List ((K × K × K) × W) :=
  let k1 := entry.1.1
  let k2 := entry.1.2.1
  let k3 := entry.1.2.2
  let w := entry.2
  let lk1 := layout.layerkey k1
  let lk2 := layout.layerkey k2
  let lk3 := layout.layerkey k3
  if ¬ lk1.modifiers.isLock ∧ ¬ lk2.modifiers.isLock ∧
      ¬ lk3.modifiers.isLock then
    [((k1, k2, k3), w)]
  else if lk1.modifiers.isLock ∧ lk1.layer = lk2.layer ∧
      lk2.layer = lk3.layer then
    [((layout.base_index k1, layout.base_index k2, layout.base_index k3), w)]
  else
    lockGeneralInsertions layout k1 k2 k3 w

/-- `process_lock_layers`: every input entry's merges are applied to a
fresh accumulator with insert-or-add. -/
def process_lock_layers (trigrams : TrigramIndices) (layout : Layout) :
    TrigramIndices :=
  trigrams.foldl (fun m entry => accumulate m (lockEntryInsertions layout entry)) []

/-- `OnDemandTrigramMapper::layerkey_indices`: translate the character
trigrams, then run the one-shot, hold and lock passes as dictated by the
layout's capability flags (the hold pass also requires splitting to be
enabled; when it is skipped, the vec is collected into a plain hash
map). -/
def layerkey_indices (cfg : SplitModifiersConfig) (trigrams : Trigrams)
    (layout : Layout) (exclude_line_breaks : Bool) : TrigramIndices × W :=
  let r := map_trigrams trigrams layout exclude_line_breaks
  let v :=
    if layout.has_one_shot_layers then process_one_shot_layers r.1 layout
    else r.1
  let m :=
    if layout.has_hold_layers ∧ cfg.enabled then
      process_hold_layers cfg v layout
    else collectMap v
  let m2 := if layout.has_lock_layers then process_lock_layers m layout else m
  (m2, r.2)

/-- A copy of a layout with the three capability flags replaced; the key
tables are untouched. -/
def withFlags (L : Layout) (b1 b2 b3 : Bool) : Layout :=
  { L with has_one_shot_layers := b1, has_hold_layers := b2,
           has_lock_layers := b3 }

/-- A layout whose hold-classified keys all have duplicate-free modifier
lists of at most two modifiers that do not contain the key's base key (the
regime the source's capacity comments document). -/
def GoodHoldMods (L : Layout) : Prop :=
  ∀ k : K, ∀ mods : List K, (L.layerkey k).modifiers = .hold mods →
    mods.Nodup ∧ L.base_index k ∉ mods ∧ mods.length ≤ 2

/-- A key triple whose two adjacent pairs are both non-identical. -/
def adjDistinct (t : K × K × K) : Prop := t.1 ≠ t.2.1 ∧ t.2.1 ≠ t.2.2

instance (t : K × K × K) : Decidable (adjDistinct t) := by
  unfold adjDistinct
  infer_instance

/-- The split-modifiers configuration used by concrete instances: enabled,
same-key factor one half. -/
def cfgHalf : SplitModifiersConfig := ⟨true, 1/2⟩

/-- Concrete layout for the duplicate-weight scenario: symbol a sits on a
one-shot layer (key 2 = one-shot modifier 5 then base 3); no hold or lock
layers. -/
def oneShotLayout : Layout where
  layerkey := fun k =>
    if k = 2 then ⟨'a', 1, .oneShot [5]⟩ else ⟨'x', 0, .nomods⟩
  symbol_index := fun c => if c = 'a' then some 2 else none
  base_index := fun k => if k = 2 then 3 else k
  has_one_shot_layers := true
  has_hold_layers := false
  has_lock_layers := false

/-- Concrete layout whose key 1 is hold-classified with the degenerate
modifier list containing modifier 5 twice (base key 0). -/
def dupHoldLayout : Layout where
  layerkey := fun k =>
    if k = 1 then ⟨'A', 1, .hold [5, 5]⟩ else ⟨'x', 0, .nomods⟩
  symbol_index := fun _ => none
  base_index := fun k => if k = 1 then 0 else k
  has_one_shot_layers := false
  has_hold_layers := true
  has_lock_layers := false

/-- Concrete layout whose key 1 is hold-classified with two distinct
modifiers 5 and 6 (base key 0), satisfying the good-modifier regime. -/
def twoModHoldLayout : Layout where
  layerkey := fun k =>
    if k = 1 then ⟨'A', 1, .hold [5, 6]⟩ else ⟨'x', 0, .nomods⟩
  symbol_index := fun _ => none
  base_index := fun k => if k = 1 then 0 else k
  has_one_shot_layers := false
  has_hold_layers := true
  has_lock_layers := false

/-- Concrete layout with no modifier keys at all; symbols a and b map to
keys 1 and 2. -/
def plainLayout : Layout where
  layerkey := fun _ => ⟨'x', 0, .nomods⟩
  symbol_index := fun c =>
    if c = 'a' then some 1 else if c = 'b' then some 2 else none
  base_index := fun k => k
  has_one_shot_layers := false
  has_hold_layers := false
  has_lock_layers := false

/-- Concrete layout for the lock resolver: key 1 is lock-classified on
layer 2 (base 10), key 2 is hold-classified on layer 1 with layer-switch
modifier candidates 6 and 7 (base 20), key 3 is a plain layer-1 key, so
only the modifiers-before-position-2 slot is ambiguous. -/
def lockLayout : Layout where
  layerkey := fun k =>
    if k = 1 then ⟨'L', 2, .lock [9]⟩
    else if k = 2 then ⟨'h', 1, .hold [6, 7]⟩
    else ⟨'y', 1, .nomods⟩
  symbol_index := fun _ => none
  base_index := fun k => if k = 1 then 10 else if k = 2 then 20 else k
  has_one_shot_layers := false
  has_hold_layers := false
  has_lock_layers := true

/-- Concrete layout for the lock fast path: keys 1 to 3 are lock-classified
keys on the same layer 2, each with base key shifted by 10. -/
def lockFastLayout : Layout where
  layerkey := fun k =>
    if k ≤ 3 then ⟨'l', 2, .lock [9]⟩ else ⟨'x', 0, .nomods⟩
  symbol_index := fun _ => none
  base_index := fun k => k + 10
  has_one_shot_layers := false
  has_hold_layers := false
  has_lock_layers := true

/-- Concrete layout for the one-shot resolver: keys 1, 2, 3 are
one-shot-classified with single modifiers 6, 7, 8 and bases 11, 12, 13;
symbols a, b, c reach them. -/
def oneShotTripleLayout : Layout where
  layerkey := fun k =>
    if k = 1 then ⟨'a', 1, .oneShot [6]⟩
    else if k = 2 then ⟨'b', 1, .oneShot [7]⟩
    else if k = 3 then ⟨'c', 1, .oneShot [8]⟩
    else ⟨'x', 0, .nomods⟩
  symbol_index := fun c =>
    if c = 'a' then some 1 else if c = 'b' then some 2
    else if c = 'c' then some 3 else if c = '\n' then some 4 else none
  base_index := fun k => if k ≤ 3 then k + 10 else k
  has_one_shot_layers := true
  has_hold_layers := false
  has_lock_layers := false

/-- The not-found weight one character trigram contributes in
`map_trigrams`: its full weight when it is not excluded by the line-break
filter and at least one of its three characters has no key in the layout,
and zero otherwise. -/
def notFoundContribution (layout : Layout) (exclude_line_breaks : Bool)
    (e : (Char × Char × Char) × W) : W :=
  if exclude_line_breaks ∧
      ((e.1.1 = '\n' ∧ e.1.2.1 ≠ '\n') ∨ (e.1.2.1 = '\n' ∧ e.1.2.2 ≠ '\n'))
  then 0
  else if (layout.symbol_index e.1.1).isNone ∨
      (layout.symbol_index e.1.2.1).isNone ∨
      (layout.symbol_index e.1.2.2).isNone then e.2
  else 0

/-- The translation of one character trigram: `none` when it is excluded by
the line-break filter or any of its characters has no key in the layout,
and otherwise the key triple with the unchanged weight. -/
def translateEntry (layout : Layout) (exclude_line_breaks : Bool)
    (e : (Char × Char × Char) × W) : Option ((K × K × K) × W) :=
  if exclude_line_breaks ∧
      ((e.1.1 = '\n' ∧ e.1.2.1 ≠ '\n') ∨ (e.1.2.1 = '\n' ∧ e.1.2.2 ≠ '\n'))
  then none
  else
    match layout.symbol_index e.1.1, layout.symbol_index e.1.2.1,
        layout.symbol_index e.1.2.2 with
    | some i1, some i2, some i3 => some ((i1, i2, i3), e.2)
    | _, _, _ => none


/-- Keys after an insert-or-add are the inserted key or existing keys. -/
theorem mem_keysOf_insertOrAddWeight {m : TrigramIndices} {t x : K × K × K}
    {w : W} (h : x ∈ keysOf (insertOrAddWeight m t w)) :
    x = t ∨ x ∈ keysOf m := by
  induction m with
  | nil => left; simpa [insertOrAddWeight, keysOf] using h
  | cons e rest ih =>
      by_cases he : e.1 = t
      · simp only [insertOrAddWeight, if_pos he, keysOf, List.map_cons,
          List.mem_cons] at h
        rcases h with h | h
        · exact Or.inl (he ▸ h)
        · right
          simp only [keysOf, List.map_cons, List.mem_cons]
          exact Or.inr h
      · simp only [insertOrAddWeight, if_neg he, keysOf, List.map_cons,
          List.mem_cons] at h
        rcases h with h | h
        · right
          simp only [keysOf, List.map_cons, List.mem_cons]
          exact Or.inl h
        · rcases ih h with h2 | h2
          · exact Or.inl h2
          · right
            simp only [keysOf, List.map_cons, List.mem_cons]
            exact Or.inr h2

/-- Keys after accumulating a list are existing keys or keys of the
list. -/
theorem mem_keysOf_accumulate {v : List ((K × K × K) × W)}
    {m : TrigramIndices} {x : K × K × K} (h : x ∈ keysOf (accumulate m v)) :
    x ∈ keysOf m ∨ x ∈ keysOf v := by
  induction v generalizing m with
  | nil => exact Or.inl h
  | cons e rest ih =>
      rcases ih (m := insertOrAddWeight m e.1 e.2) h with h2 | h2
      · rcases mem_keysOf_insertOrAddWeight h2 with h3 | h3
        · exact Or.inr (by simp [keysOf, h3])
        · exact Or.inl h3
      · exact Or.inr (by
          simp only [keysOf, List.map_cons, List.mem_cons]
          exact Or.inr h2)

/-- Insert-or-add of an absent key appends it. -/
theorem insertOrAddWeight_notMem {m : TrigramIndices} {t : K × K × K}
    {w : W} (h : t ∉ keysOf m) : insertOrAddWeight m t w = m ++ [(t, w)] := by
  induction m with
  | nil => simp [insertOrAddWeight]
  | cons e rest ih =>
      have hne : e.1 ≠ t := by
        intro he
        exact h (by simp [keysOf, he])
      have hrest : t ∉ keysOf rest := by
        intro ht
        exact h (by
          simp only [keysOf, List.map_cons, List.mem_cons]
          exact Or.inr ht)
      simp [insertOrAddWeight, hne, ih hrest]

/-- Overwrite-insert of an absent key appends it. -/
theorem insertOverwrite_notMem {m : TrigramIndices} {t : K × K × K}
    {w : W} (h : t ∉ keysOf m) : insertOverwrite m t w = m ++ [(t, w)] := by
  induction m with
  | nil => simp [insertOverwrite]
  | cons e rest ih =>
      have hne : e.1 ≠ t := by
        intro he
        exact h (by simp [keysOf, he])
      have hrest : t ∉ keysOf rest := by
        intro ht
        exact h (by
          simp only [keysOf, List.map_cons, List.mem_cons]
          exact Or.inr ht)
      simp [insertOverwrite, hne, ih hrest]

/-- Accumulating a list whose keys, joined with the accumulator's, are
duplicate-free appends it unchanged. -/
theorem accumulate_of_nodup {v : List ((K × K × K) × W)}
    {m : TrigramIndices} (h : (keysOf (m ++ v)).Nodup) :
    accumulate m v = m ++ v := by
  induction v generalizing m with
  | nil => simp [accumulate]
  | cons e rest ih =>
      have h2 : (List.map Prod.fst m ++
          List.map Prod.fst (e :: rest)).Nodup := by
        simpa [keysOf, List.map_append] using h
      have hnot : e.1 ∉ keysOf m := by
        intro hmem
        exact (List.nodup_append.mp h2).2.2 hmem (by simp)
      have step : accumulate m (e :: rest) =
          accumulate (m ++ [(e.1, e.2)]) rest := by
        simp only [accumulate, List.foldl_cons, insertOrAddWeight_notMem hnot]
      rw [step]
      have h3 : (keysOf ((m ++ [(e.1, e.2)]) ++ rest)).Nodup := by
        simpa [keysOf, List.append_assoc] using h
      have h4 := ih h3
      simpa [List.append_assoc] using h4

/-- Collecting a duplicate-free list into a hash map from an accumulator
with disjoint keys appends it unchanged. -/
theorem foldl_insertOverwrite_of_nodup {v : TrigramIndicesVec}
    {m : TrigramIndices} (h : (keysOf (m ++ v)).Nodup) :
    v.foldl (fun m e => insertOverwrite m e.1 e.2) m = m ++ v := by
  induction v generalizing m with
  | nil => simp
  | cons e rest ih =>
      have h2 : (List.map Prod.fst m ++
          List.map Prod.fst (e :: rest)).Nodup := by
        simpa [keysOf, List.map_append] using h
      have hnot : e.1 ∉ keysOf m := by
        intro hmem
        exact (List.nodup_append.mp h2).2.2 hmem (by simp)
      have step : (e :: rest).foldl (fun m e => insertOverwrite m e.1 e.2) m
          = rest.foldl (fun m e => insertOverwrite m e.1 e.2)
            (m ++ [(e.1, e.2)]) := by
        simp only [List.foldl_cons, insertOverwrite_notMem hnot]
      rw [step]
      have h3 : (keysOf ((m ++ [(e.1, e.2)]) ++ rest)).Nodup := by
        simpa [keysOf, List.append_assoc] using h
      have h4 := ih h3
      simpa [List.append_assoc] using h4

/-- Collecting a list with duplicate-free keys reproduces the list. -/
theorem collectMap_of_nodup {v : TrigramIndicesVec}
    (h : (keysOf v).Nodup) : collectMap v = v := by
  have h2 := foldl_insertOverwrite_of_nodup (m := ([] : TrigramIndices))
    (v := v) (by simpa using h)
  simpa [collectMap] using h2

/-- A width-3 window list has two fewer entries than its stream. -/
theorem windows3_length (l : List K) : (windows3 l).length = l.length - 2 := by
  simp only [windows3, List.length_map, List.length_zip, List.length_drop]
  omega

/-- Every position contributes at least one key to the one-shot stream. -/
theorem oneShotKeySeq_length_pos (L : Layout) (k : K) :
    1 ≤ (oneShotKeySeq L k).length := by
  cases h : (L.layerkey k).modifiers <;>
    simp [oneShotKeySeq, Layout.resolve_modifiers, h]

/-- A position with at most two one-shot modifiers contributes at most
three keys to the one-shot stream. -/
theorem oneShotKeySeq_length_le (L : Layout) (k : K)
    (h : ∀ mods, (L.layerkey k).modifiers = .oneShot mods →
      mods.length ≤ 2) : (oneShotKeySeq L k).length ≤ 3 := by
  cases hm : (L.layerkey k).modifiers <;>
    simp only [oneShotKeySeq, Layout.resolve_modifiers, hm, List.length_cons,
      List.length_nil, List.length_append, List.length_map]
  case oneShot mods =>
    have := h mods hm
    omega
  all_goals omega

/-- C3 counterexample: at base key 0, modifiers 1, 2, 3, weight 1 and
factor one half, take-three does not return the 6 permutations of the
modifiers: its enumeration attempts 18 pushes (the 6 pair-with-base
orderings at the unsquared factor, the 6 permutations at the squared
factor, and 6 degenerate triples repeating modifier 3) into a capacity-2
container, so the third push overflows and the function panics, returning
nothing at all. -/
theorem take_three_three_mods_counterexample :
    take_three_layerkey 0 [1, 2, 3] 1 (1 / 2) = none ∧
    take_three_pushes 0 [1, 2, 3] 1 (1 / 2) =
      [((1, 2, 0), 1/2), ((2, 1, 0), 1/2),
       ((1, 2, 3), 1/4), ((1, 3, 2), 1/4), ((2, 1, 3), 1/4),
       ((2, 3, 1), 1/4), ((3, 1, 2), 1/4), ((3, 2, 1), 1/4),
       ((1, 3, 0), 1/2), ((3, 1, 0), 1/2),
       ((1, 3, 3), 1/4), ((1, 3, 3), 1/4), ((3, 1, 3), 1/4),
       ((3, 3, 1), 1/4), ((3, 1, 3), 1/4), ((3, 3, 1), 1/4),
       ((2, 3, 0), 1/2), ((3, 2, 0), 1/2)] ∧
    (take_three_pushes 0 [1, 2, 3] 1 (1 / 2)).length = 18 := by
  refine ⟨rfl, ?_, rfl⟩
  norm_num [take_three_pushes, take_three_aux]

/-- C3 amended: for two modifiers take-three returns exactly the two
(modifier, modifier, base) orderings at the adjusted weight; for three
modifiers it never produces the six permutations: its enumeration pushes,
in source order, the pair-with-base orderings at factor times weight, the
six permutations of the three modifiers at factor squared times weight,
and six further factor-squared entries repeating the third modifier — 18
attempted pushes into the capacity-2 container, so the function panics and
returns nothing. -/
theorem take_three_exact (b m1 m2 m3 : K) (w f : W) :
    take_three_layerkey b [m1, m2] w f =
      some [((m1, m2, b), f * w), ((m2, m1, b), f * w)] ∧
    take_three_pushes b [m1, m2, m3] w f =
      [((m1, m2, b), f * w), ((m2, m1, b), f * w),
       ((m1, m2, m3), f * f * w), ((m1, m3, m2), f * f * w),
       ((m2, m1, m3), f * f * w), ((m2, m3, m1), f * f * w),
       ((m3, m1, m2), f * f * w), ((m3, m2, m1), f * f * w),
       ((m1, m3, b), f * w), ((m3, m1, b), f * w),
       ((m1, m3, m3), f * f * w), ((m1, m3, m3), f * f * w),
       ((m3, m1, m3), f * f * w), ((m3, m3, m1), f * f * w),
       ((m3, m1, m3), f * f * w), ((m3, m3, m1), f * f * w),
       ((m2, m3, b), f * w), ((m3, m2, b), f * w)] ∧
    take_three_layerkey b [m1, m2, m3] w f = none :=
  ⟨rfl, rfl, rfl⟩

/-- C10: with at most two modifiers, the combinatorial primitives produce
at most 3, 4 and 2 elements, so none of the pushes can overflow the
inline containers of capacities 3, 4 and 2; in particular the capacity-2
take-three container never overflows, so its overflow panic is
unreachable and the eager function returns exactly its pushes. -/
theorem take_capacity_bounds (b : K) (mods : List K) (w f : W)
    (h : mods.length ≤ 2) :
    (take_one_layerkey b mods w).length ≤ 3 ∧
    (take_two_layerkey b mods w f).length ≤ 4 ∧
    (take_three_pushes b mods w f).length ≤ 2 ∧
    take_three_layerkey b mods w f = some (take_three_pushes b mods w f) := by
  match mods with
  | [] =>
      refine ⟨?_, ?_, ?_, ?_⟩ <;>
        simp [take_one_layerkey, take_two_layerkey, take_two_aux,
          take_three_layerkey, take_three_pushes, take_three_aux]
  | [a] =>
      refine ⟨?_, ?_, ?_, ?_⟩ <;>
        simp [take_one_layerkey, take_two_layerkey, take_two_aux,
          take_three_layerkey, take_three_pushes, take_three_aux]
  | [a, a2] =>
      refine ⟨?_, ?_, ?_, ?_⟩
      · simp [take_one_layerkey]
      · by_cases hab : a = a2 <;>
          simp [take_two_layerkey, take_two_aux, hab]
      · simp [take_three_pushes, take_three_aux]
      · simp [take_three_layerkey, take_three_pushes, take_three_aux]
  | a :: a2 :: a3 :: rest =>
      exact absurd h (by simp only [List.length_cons]; omega)

/-- C10 witness: the bounds at base key 0, modifiers 1 and 2, weight 1 and
factor one half. -/
theorem take_capacity_bounds_witness :
    (take_one_layerkey 0 [1, 2] 1).length ≤ 3 ∧
    (take_two_layerkey 0 [1, 2] 1 (1 / 2)).length ≤ 4 ∧
    (take_three_pushes 0 [1, 2] 1 (1 / 2)).length ≤ 2 ∧
    take_three_layerkey 0 [1, 2] 1 (1 / 2) =
      some (take_three_pushes 0 [1, 2] 1 (1 / 2)) :=
  take_capacity_bounds 0 [1, 2] 1 (1 / 2) (by decide)

/-- C9: when the first key of a triple is lock-classified and all three
keys lie on the same layer, the lock resolver merges exactly the triple of
base keys with the unchanged weight, with no path expansion. -/
theorem lock_fast_path_direct (L : Layout) (k1 k2 k3 : K) (w : W)
    (h1 : (L.layerkey k1).modifiers.isLock = true)
    (h2 : (L.layerkey k1).layer = (L.layerkey k2).layer)
    (h3 : (L.layerkey k2).layer = (L.layerkey k3).layer) :
    lockEntryInsertions L ((k1, k2, k3), w) =
      [((L.base_index k1, L.base_index k2, L.base_index k3), w)] ∧
    process_lock_layers [((k1, k2, k3), w)] L =
      [((L.base_index k1, L.base_index k2, L.base_index k3), w)] := by
  have e1 : lockEntryInsertions L ((k1, k2, k3), w) =
      [((L.base_index k1, L.base_index k2, L.base_index k3), w)] := by
    simp [lockEntryInsertions, h1, h2, h3]
  refine ⟨e1, ?_⟩
  simp [process_lock_layers, accumulate, e1, insertOrAddWeight]

/-- C9 witness: the fast path on the concrete lock layout at keys 1, 2, 3
with weight 1. -/
theorem lock_fast_path_direct_witness :
    lockEntryInsertions lockFastLayout ((1, 2, 3), 1) =
      [((11, 12, 13), 1)] ∧
    process_lock_layers [((1, 2, 3), 1)] lockFastLayout =
      [((11, 12, 13), 1)] :=
  lock_fast_path_direct lockFastLayout 1 2 3 1 (by decide) (by decide)
    (by decide)

/-- C1: on the one-shot layout where symbol a expands to modifier 5 then
base 3, the trigram (a, a, a) of weight 1 yields the duplicate window list
with triple (5, 3, 5) contributing twice for a total of 2; the hash map
`collect()` on the skipped-hold-pass branch stores only weight 1 for that
triple, while the insert-or-add accumulation the invariant requires stores
2. -/
theorem collect_overwrites_duplicate_windows :
    process_one_shot_layers [((2, 2, 2), 1)] oneShotLayout =
      [((5, 3, 5), 1), ((3, 5, 3), 1), ((5, 3, 5), 1), ((3, 5, 3), 1)] ∧
    ((((process_one_shot_layers [((2, 2, 2), 1)] oneShotLayout).filter
        (fun e => e.1 = (5, 3, 5))).map Prod.snd).sum : W) = 2 ∧
    getW (layerkey_indices cfgHalf [(('a', 'a', 'a'), 1)] oneShotLayout
      false).1 (5, 3, 5) = 1 ∧
    getW (accumulate []
      (process_one_shot_layers [((2, 2, 2), 1)] oneShotLayout)) (5, 3, 5)
      = 2 := by
  refine ⟨by decide, ?_, by decide, ?_⟩
  · norm_num [process_one_shot_layers, oneShotLayout, oneShotKeySeq,
      Layout.resolve_modifiers, windows3]
  · norm_num [process_one_shot_layers, oneShotLayout, oneShotKeySeq,
      Layout.resolve_modifiers, windows3, accumulate, insertOrAddWeight,
      getW]

/-- C6: the one-shot resolver replaces every one-shot-classified position
by its modifiers followed by its base key, keeps other positions as
one-key sequences, and emits exactly one triple per width-3 window of the
concatenated stream, each with the unchanged original weight; with at most
two modifiers per one-shot position the stream has length 3 to 9 and the
window count is the stream length minus 2. -/
theorem one_shot_windows (L : Layout) (k1 k2 k3 : K) (w : W)
    (h1 : ∀ mods, (L.layerkey k1).modifiers = .oneShot mods →
      mods.length ≤ 2)
    (h2 : ∀ mods, (L.layerkey k2).modifiers = .oneShot mods →
      mods.length ≤ 2)
    (h3 : ∀ mods, (L.layerkey k3).modifiers = .oneShot mods →
      mods.length ≤ 2) :
    process_one_shot_layers [((k1, k2, k3), w)] L =
      (windows3 (oneShotKeySeq L k1 ++ oneShotKeySeq L k2 ++
        oneShotKeySeq L k3)).map (fun t => (t, w)) ∧
    (∀ e ∈ process_one_shot_layers [((k1, k2, k3), w)] L, e.2 = w) ∧
    (process_one_shot_layers [((k1, k2, k3), w)] L).length =
      (oneShotKeySeq L k1 ++ oneShotKeySeq L k2 ++
        oneShotKeySeq L k3).length - 2 ∧
    3 ≤ (oneShotKeySeq L k1 ++ oneShotKeySeq L k2 ++
      oneShotKeySeq L k3).length ∧
    (oneShotKeySeq L k1 ++ oneShotKeySeq L k2 ++
      oneShotKeySeq L k3).length ≤ 9 := by
  have heq : process_one_shot_layers [((k1, k2, k3), w)] L =
      (windows3 (oneShotKeySeq L k1 ++ oneShotKeySeq L k2 ++
        oneShotKeySeq L k3)).map (fun t => (t, w)) := by
    simp [process_one_shot_layers]
  refine ⟨heq, ?_, ?_, ?_, ?_⟩
  · intro e he
    rw [heq] at he
    rcases List.mem_map.mp he with ⟨t, ht, hte⟩
    rw [← hte]
  · rw [heq, List.length_map, windows3_length]
  · have p1 := oneShotKeySeq_length_pos L k1
    have p2 := oneShotKeySeq_length_pos L k2
    have p3 := oneShotKeySeq_length_pos L k3
    simp only [List.length_append]
    omega
  · have q1 := oneShotKeySeq_length_le L k1 h1
    have q2 := oneShotKeySeq_length_le L k2 h2
    have q3 := oneShotKeySeq_length_le L k3 h3
    simp only [List.length_append]
    omega

/-- C6 witness: the trigram of the three one-shot keys 1, 2, 3 (single
modifiers 6, 7, 8; bases 11, 12, 13) with weight 1. -/
theorem one_shot_windows_witness :
    process_one_shot_layers [((1, 2, 3), 1)] oneShotTripleLayout =
      (windows3 (oneShotKeySeq oneShotTripleLayout 1 ++
        oneShotKeySeq oneShotTripleLayout 2 ++
        oneShotKeySeq oneShotTripleLayout 3)).map (fun t => (t, 1)) ∧
    (∀ e ∈ process_one_shot_layers [((1, 2, 3), 1)] oneShotTripleLayout,
      e.2 = 1) ∧
    (process_one_shot_layers [((1, 2, 3), 1)] oneShotTripleLayout).length =
      (oneShotKeySeq oneShotTripleLayout 1 ++
        oneShotKeySeq oneShotTripleLayout 2 ++
        oneShotKeySeq oneShotTripleLayout 3).length - 2 ∧
    3 ≤ (oneShotKeySeq oneShotTripleLayout 1 ++
      oneShotKeySeq oneShotTripleLayout 2 ++
      oneShotKeySeq oneShotTripleLayout 3).length ∧
    (oneShotKeySeq oneShotTripleLayout 1 ++
      oneShotKeySeq oneShotTripleLayout 2 ++
      oneShotKeySeq oneShotTripleLayout 3).length ≤ 9 :=
  one_shot_windows oneShotTripleLayout 1 2 3 1
    (by
      intro mods h
      rw [show (oneShotTripleLayout.layerkey 1).modifiers =
        LayerModifiers.oneShot [6] from rfl] at h
      injection h with h2
      cases h2
      decide)
    (by
      intro mods h
      rw [show (oneShotTripleLayout.layerkey 2).modifiers =
        LayerModifiers.oneShot [7] from rfl] at h
      injection h with h2
      cases h2
      decide)
    (by
      intro mods h
      rw [show (oneShotTripleLayout.layerkey 3).modifiers =
        LayerModifiers.oneShot [8] from rfl] at h
      injection h with h2
      cases h2
      decide)

/-- A trigram that is not excluded and whose three characters are all found
contributes nothing to the not-found weight. -/
theorem notFoundContribution_eq_zero (L : Layout) (ex : Bool)
    (e : (Char × Char × Char) × W)
    (h : ¬(ex ∧ ((e.1.1 = '\n' ∧ e.1.2.1 ≠ '\n') ∨
        (e.1.2.1 = '\n' ∧ e.1.2.2 ≠ '\n'))) →
      (L.symbol_index e.1.1).isSome ∧ (L.symbol_index e.1.2.1).isSome ∧
        (L.symbol_index e.1.2.2).isSome) :
    notFoundContribution L ex e = 0 := by
  unfold notFoundContribution
  split
  · rfl
  · next hex =>
      rcases h hex with ⟨s1, s2, s3⟩
      rw [if_neg]
      intro hcon
      rcases hcon with hc | hc | hc
      · rw [Option.isNone_iff_eq_none.mp hc] at s1
        exact Bool.noConfusion s1
      · rw [Option.isNone_iff_eq_none.mp hc] at s2
        exact Bool.noConfusion s2
      · rw [Option.isNone_iff_eq_none.mp hc] at s3
        exact Bool.noConfusion s3

/-- C5: the translator's not-found weight is the sum, over the non-excluded
trigrams with at least one unknown character, of the full trigram weight,
counted exactly once per trigram; the translated list keeps exactly the
fully-found trigrams; and when the layout covers every character of every
non-excluded trigram the not-found weight is zero. -/
theorem map_trigrams_accounting (tg : Trigrams) (L : Layout) (ex : Bool) :
    (map_trigrams tg L ex).2 = (tg.map (notFoundContribution L ex)).sum ∧
    (map_trigrams tg L ex).1 = tg.filterMap (translateEntry L ex) ∧
    ((∀ e ∈ tg, ¬(ex ∧ ((e.1.1 = '\n' ∧ e.1.2.1 ≠ '\n') ∨
        (e.1.2.1 = '\n' ∧ e.1.2.2 ≠ '\n'))) →
        (L.symbol_index e.1.1).isSome ∧ (L.symbol_index e.1.2.1).isSome ∧
          (L.symbol_index e.1.2.2).isSome) →
      (map_trigrams tg L ex).2 = 0) := by
  have main : (map_trigrams tg L ex).2 =
      (tg.map (notFoundContribution L ex)).sum ∧
      (map_trigrams tg L ex).1 = tg.filterMap (translateEntry L ex) := by
    induction tg with
    | nil => exact ⟨rfl, rfl⟩
    | cons e rest ih =>
        obtain ⟨⟨c1, c2, c3⟩, w⟩ := e
        by_cases hex : ex ∧ ((c1 = '\n' ∧ c2 ≠ '\n') ∨
            (c2 = '\n' ∧ c3 ≠ '\n'))
        · constructor
          · simp only [map_trigrams, if_pos hex, List.map_cons,
              List.sum_cons, ih.1, notFoundContribution]
            ring
          · simp only [map_trigrams, if_pos hex, List.filterMap_cons,
              translateEntry]
            exact ih.2
        · cases hl1 : L.symbol_index c1 with
          | none =>
              constructor
              · simp only [map_trigrams, if_neg hex, hl1, List.map_cons,
                  List.sum_cons, ih.1, notFoundContribution]
                rw [if_pos (by simp)]
                ring
              · simp only [map_trigrams, if_neg hex, hl1,
                  List.filterMap_cons, translateEntry]
                exact ih.2
          | some i1 =>
              cases hl2 : L.symbol_index c2 with
              | none =>
                  constructor
                  · simp only [map_trigrams, if_neg hex, hl1, hl2,
                      List.map_cons, List.sum_cons, ih.1,
                      notFoundContribution]
                    rw [if_pos (by simp)]
                    ring
                  · simp only [map_trigrams, if_neg hex, hl1, hl2,
                      List.filterMap_cons, translateEntry]
                    exact ih.2
              | some i2 =>
                  cases hl3 : L.symbol_index c3 with
                  | none =>
                      constructor
                      · simp only [map_trigrams, if_neg hex, hl1, hl2, hl3,
                          List.map_cons, List.sum_cons, ih.1,
                          notFoundContribution]
                        rw [if_pos (by simp)]
                        ring
                      · simp only [map_trigrams, if_neg hex, hl1, hl2, hl3,
                          List.filterMap_cons, translateEntry]
                        exact ih.2
                  | some i3 =>
                      constructor
                      · simp only [map_trigrams, if_neg hex, hl1, hl2, hl3,
                          List.map_cons, List.sum_cons, ih.1,
                          notFoundContribution]
                        rw [if_neg (by simp)]
                        ring
                      · simp only [map_trigrams, if_neg hex, hl1, hl2, hl3,
                          List.filterMap_cons, translateEntry]
                        rw [ih.2]
  refine ⟨main.1, main.2, ?_⟩
  intro hcov
  rw [main.1]
  apply List.sum_eq_zero
  intro x hx
  rcases List.mem_map.mp hx with ⟨e, he, hxe⟩
  rw [← hxe]
  exact notFoundContribution_eq_zero L ex e (hcov e he)

/-- C5 witness: on the one-shot layout covering a, b, c and the line
break, the table of the trigrams (a, b, c) and (a, line break, line break)
has not-found weight zero and both trigrams translated. -/
theorem map_trigrams_accounting_witness :
    (map_trigrams [(('a', 'b', 'c'), 1), (('a', '\n', '\n'), 2)]
      oneShotTripleLayout false).2 =
      ([(('a', 'b', 'c'), (1 : W)), (('a', '\n', '\n'), 2)].map
        (notFoundContribution oneShotTripleLayout false)).sum ∧
    (map_trigrams [(('a', 'b', 'c'), 1), (('a', '\n', '\n'), 2)]
      oneShotTripleLayout false).1 =
      [(('a', 'b', 'c'), (1 : W)), (('a', '\n', '\n'), 2)].filterMap
        (translateEntry oneShotTripleLayout false) ∧
    (map_trigrams [(('a', 'b', 'c'), 1), (('a', '\n', '\n'), 2)]
      oneShotTripleLayout false).2 = 0 := by
  have h := map_trigrams_accounting
    [(('a', 'b', 'c'), 1), (('a', '\n', '\n'), 2)] oneShotTripleLayout false
  exact ⟨h.1, h.2.1, h.2.2 (by decide)⟩

/-- C8: with line-break exclusion on, a trigram whose first or second
character is a line break followed by a different character is dropped
before any symbol lookup (for any layout, contributing neither a triple nor
not-found weight), and a trigram is skipped exactly under that condition;
in particular the trigram of a line break then a then b is dropped while
the trigram a, line break, line break is kept and translated. -/
theorem line_break_exclusion (L : Layout) (w : W) (rest : Trigrams)
    (ia inl : K) (hw : w ≠ 0)
    (ha : L.symbol_index 'a' = some ia)
    (hn : L.symbol_index '\n' = some inl) :
    map_trigrams [(('\n', 'a', 'b'), w)] L true = ([], 0) ∧
    map_trigrams [(('a', '\n', '\n'), w)] L true =
      ([((ia, inl, inl), w)], 0) ∧
    (∀ c1 c2 c3 : Char,
      map_trigrams (((c1, c2, c3), w) :: rest) L true =
          map_trigrams rest L true ↔
        ((c1 = '\n' ∧ c2 ≠ '\n') ∨ (c2 = '\n' ∧ c3 ≠ '\n'))) := by
  refine ⟨?_, ?_, ?_⟩
  · simp only [map_trigrams]
    rw [if_pos (by decide)]
  · simp only [map_trigrams]
    rw [if_neg (by decide), ha, hn]
  · intro c1 c2 c3
    constructor
    · intro heq
      by_contra hcond
      simp only [map_trigrams] at heq
      rw [if_neg (show ¬(True ∧ ((c1 = '\n' ∧ c2 ≠ '\n') ∨
        (c2 = '\n' ∧ c3 ≠ '\n'))) from fun hh => hcond hh.2)] at heq
      cases hl1 : L.symbol_index c1 with
      | none =>
          rw [hl1] at heq
          have h2 := congrArg Prod.snd heq
          simp only at h2
          exact hw (by linarith)
      | some i1 =>
          rw [hl1] at heq
          cases hl2 : L.symbol_index c2 with
          | none =>
              rw [hl2] at heq
              have h2 := congrArg Prod.snd heq
              simp only at h2
              exact hw (by linarith)
          | some i2 =>
              rw [hl2] at heq
              cases hl3 : L.symbol_index c3 with
              | none =>
                  rw [hl3] at heq
                  have h2 := congrArg Prod.snd heq
                  simp only at h2
                  exact hw (by linarith)
              | some i3 =>
                  rw [hl3] at heq
                  have h1 := congrArg Prod.fst heq
                  simp only at h1
                  exact List.cons_ne_self _ _ h1
    · intro hcond
      simp only [map_trigrams]
      rw [if_pos ⟨trivial, hcond⟩]

/-- C8 witness: the two instance trigrams at weight 1 on the concrete
layout mapping a to key 1 and the line break to key 4. -/
theorem line_break_exclusion_witness :
    map_trigrams [(('\n', 'a', 'b'), 1)] oneShotTripleLayout true =
      ([], 0) ∧
    map_trigrams [(('a', '\n', '\n'), 1)] oneShotTripleLayout true =
      ([((1, 4, 4), 1)], 0) ∧
    (∀ c1 c2 c3 : Char,
      map_trigrams (((c1, c2, c3), 1) :: []) oneShotTripleLayout true =
          map_trigrams [] oneShotTripleLayout true ↔
        ((c1 = '\n' ∧ c2 ≠ '\n') ∨ (c2 = '\n' ∧ c3 ≠ '\n'))) :=
  line_break_exclusion oneShotTripleLayout 1 [] 1 4 (by norm_num)
    (by decide) (by decide)

/-- The slot product has as many elements as the product of the slot
sizes. -/
theorem slotProduct_length (slots : List (List (Option K))) :
    (slotProduct slots).length = (slots.map List.length).prod := by
  induction slots with
  | nil => rfl
  | cons slot rest ih =>
      have hstep : slotProduct (slot :: rest) =
          slot.flatMap (fun c => (slotProduct rest).map (fun p => c :: p)) :=
        rfl
      rw [hstep, List.length_flatMap]
      have hconst : (List.map (List.length ∘ fun c =>
          List.map (fun p => c :: p) (slotProduct rest)) slot) =
          List.map (fun _ => (slotProduct rest).length) slot :=
        List.map_congr_left (fun c _ => by simp)
      rw [hconst, List.map_const', List.sum_replicate, smul_eq_mul, ih,
        List.map_cons, List.prod_cons]

/-- The three key slots of the lock resolver always hold exactly one
choice. -/
theorem lockSlots_key_lengths (L : Layout) (k1 k2 k3 : K) :
    (lockSlots L k1 k2 k3).key_slot_1.length = 1 ∧
    (lockSlots L k1 k2 k3).key_slot_2.length = 1 ∧
    (lockSlots L k1 k2 k3).key_slot_3.length = 1 := by
  cases h1 : (L.layerkey k1).modifiers <;>
    cases h2 : (L.layerkey k2).modifiers <;>
      cases h3 : (L.layerkey k3).modifiers <;>
        simp [lockSlots, h1, h2, h3]

/-- The number of concrete typing paths is the product of the four
ambiguous slot sizes. -/
theorem lockPaths_length (L : Layout) (k1 k2 k3 : K) :
    (lockPaths L k1 k2 k3).length =
      (lockSlots L k1 k2 k3).mods_after_1.length *
      (lockSlots L k1 k2 k3).mods_before_2.length *
      (lockSlots L k1 k2 k3).mods_after_2.length *
      (lockSlots L k1 k2 k3).mods_before_3.length := by
  have hk := lockSlots_key_lengths L k1 k2 k3
  simp only [lockPaths, List.length_map, slotProduct_length,
    LockSlots.asList, List.map_cons, List.map_nil, List.prod_cons,
    List.prod_nil, hk.1, hk.2.1, hk.2.2]
  ring

/-- The sequential divisions of the per-path weight equal one division by
the product of the four ambiguous slot sizes. -/
theorem lockWPerPath_eq (L : Layout) (k1 k2 k3 : K) (w : W) :
    lockWPerPath L k1 k2 k3 w =
      w / (((lockSlots L k1 k2 k3).mods_after_1.length *
        (lockSlots L k1 k2 k3).mods_before_2.length *
        (lockSlots L k1 k2 k3).mods_after_2.length *
        (lockSlots L k1 k2 k3).mods_before_3.length : Nat) : W) := by
  simp only [lockWPerPath]
  rw [div_div, div_div, div_div]
  push_cast
  ring_nf

/-- C7: in the lock resolver's general path, every merge carries the
original weight divided by the product of the four ambiguous slot sizes;
when that product is 2 (exactly two layer-switch candidates at one slot,
one everywhere else) there are exactly 2 typing paths, each carrying half
the original weight, and the two halves sum to the original weight. -/
theorem lock_weight_split (L : Layout) (k1 k2 k3 : K) (w : W) :
    (∀ e ∈ lockGeneralInsertions L k1 k2 k3 w,
      e.2 = w / (((lockSlots L k1 k2 k3).mods_after_1.length *
        (lockSlots L k1 k2 k3).mods_before_2.length *
        (lockSlots L k1 k2 k3).mods_after_2.length *
        (lockSlots L k1 k2 k3).mods_before_3.length : Nat) : W)) ∧
    ((lockSlots L k1 k2 k3).mods_after_1.length *
        (lockSlots L k1 k2 k3).mods_before_2.length *
        (lockSlots L k1 k2 k3).mods_after_2.length *
        (lockSlots L k1 k2 k3).mods_before_3.length = 2 →
      (lockPaths L k1 k2 k3).length = 2 ∧
      lockWPerPath L k1 k2 k3 w = w / 2 ∧
      w / 2 + w / 2 = w) := by
  constructor
  · intro e he
    rcases List.mem_flatMap.mp he with ⟨path, _, hmem⟩
    rcases List.mem_map.mp hmem with ⟨t, _, hte⟩
    rw [← hte]
    exact lockWPerPath_eq L k1 k2 k3 w
  · intro hprod
    refine ⟨?_, ?_, by ring⟩
    · rw [lockPaths_length, hprod]
    · rw [lockWPerPath_eq, hprod]
      norm_num

/-- C7 witness: on the concrete lock layout, the slot of the
modifiers-before-position-2 has the two candidates 6 and 7 and every other
slot is unambiguous, so a weight-1 entry splits into 2 paths of weight one
half summing to 1. -/
theorem lock_weight_split_witness :
    (lockPaths lockLayout 1 2 3).length = 2 ∧
    lockWPerPath lockLayout 1 2 3 1 = 1 / 2 ∧
    (1 : W) / 2 + 1 / 2 = 1 :=
  (lock_weight_split lockLayout 1 2 3 1).2 (by decide)

/-- C2 counterexample: on the layout whose key 1 resolves to hold
modifiers [5, 5] (base 0), the held resolver's take-three expansion emits
the triple (5, 5, 0) — identical first and second keys — unfiltered, and it
is present in the output with weight 1. -/
theorem hold_adjacent_duplicate_counterexample :
    getW (process_hold_layers cfgHalf [((1, 7, 8), 1)] dupHoldLayout)
      (5, 5, 0) = 1 ∧
    (5, 5, 0) ∈ keysOf (process_hold_layers cfgHalf [((1, 7, 8), 1)]
      dupHoldLayout) := by
  constructor
  · norm_num [process_hold_layers, accumulate, holdCandidates, holdKeyMods,
      dupHoldLayout, Layout.resolve_modifiers, take_one_layerkey,
      take_two_layerkey, take_two_aux, take_three_pushes, take_three_aux,
      insertOrAddWeight, getW, cfgHalf]
  · decide

/-- Each position's resolved key and modifier list inherit the
good-modifier regime from the layout. -/
theorem holdKeyMods_good (L : Layout) (hL : GoodHoldMods L) (k : K) :
    (holdKeyMods L k).2.Nodup ∧ (holdKeyMods L k).1 ∉ (holdKeyMods L k).2 ∧
    (holdKeyMods L k).2.length ≤ 2 := by
  cases hm : (L.layerkey k).modifiers with
  | hold mods =>
      have h2 := hL k mods hm
      simp only [holdKeyMods, Layout.resolve_modifiers, hm]
      exact h2
  | nomods => simp [holdKeyMods, Layout.resolve_modifiers, hm]
  | oneShot mods => simp [holdKeyMods, Layout.resolve_modifiers, hm]
  | lock mods => simp [holdKeyMods, Layout.resolve_modifiers, hm]

/-- Under the good-modifier regime a take-three expansion only produces
triples with distinct adjacent keys. -/
theorem take_three_adjDistinct (b : K) (mods : List K) (w f : W)
    (hnd : mods.Nodup) (hb : b ∉ mods) (hlen : mods.length ≤ 2) :
    ∀ e ∈ take_three_pushes b mods w f, adjDistinct e.1 := by
  match mods with
  | [] => intro e he; simp [take_three_pushes, take_three_aux] at he
  | [a] => intro e he; simp [take_three_pushes, take_three_aux] at he
  | [a, a2] =>
      intro e he
      have ha2 : a ≠ a2 := by
        intro hcon
        rw [hcon] at hnd
        simp at hnd
      have hba : b ≠ a := by
        intro hcon
        exact hb (by simp [hcon])
      have hba2 : b ≠ a2 := by
        intro hcon
        exact hb (by simp [hcon])
      simp only [take_three_pushes, take_three_aux, List.flatMap_cons,
        List.drop_succ_cons, List.drop_nil, List.flatMap_nil,
        List.append_nil, List.flatMap_singleton, List.nil_append,
        List.mem_cons, List.not_mem_nil, or_false] at he
      rcases he with rfl | rfl
      · exact ⟨ha2, fun hcon => hba2 hcon.symm⟩
      · exact ⟨fun hcon => ha2 hcon.symm, fun hcon => hba hcon.symm⟩
  | a :: a2 :: a3 :: rest =>
      exact absurd hlen (by simp only [List.length_cons]; omega)

/-- Under the good-modifier regime every candidate the held resolver
generates for an entry has distinct adjacent keys: the five take-one and
take-two combination patterns are filtered explicitly, and the take-three
expansions cannot produce adjacent duplicates. -/
theorem holdCandidates_adjDistinct (cfg : SplitModifiersConfig)
    (L : Layout) (hL : GoodHoldMods L) (entry : (K × K × K) × W) :
    ∀ e ∈ holdCandidates cfg L entry, adjDistinct e.1 := by
  intro e he
  have g1 := holdKeyMods_good L hL entry.1.1
  have g2 := holdKeyMods_good L hL entry.1.2.1
  have g3 := holdKeyMods_good L hL entry.1.2.2
  simp only [holdCandidates, List.mem_append, List.mem_flatMap,
    List.mem_filterMap] at he
  rcases he with ((((((h | h) | h) | h) | h) | h) | h) | h
  · rcases h with ⟨e1, _, e2, _, e3, _, hif⟩
    split at hif
    · next hcond =>
        injection hif with hif
        rw [← hif]
        exact ⟨hcond.1, hcond.2⟩
    · exact absurd hif (by simp)
  · rcases h with ⟨e12, _, e3, _, hif⟩
    split at hif
    · next hcond =>
        injection hif with hif
        rw [← hif]
        exact ⟨hcond.1, hcond.2⟩
    · exact absurd hif (by simp)
  · rcases h with ⟨e1, _, e23, _, hif⟩
    split at hif
    · next hcond =>
        injection hif with hif
        rw [← hif]
        exact ⟨hcond.1, hcond.2⟩
    · exact absurd hif (by simp)
  · rcases h with ⟨e12, _, e3, _, hif⟩
    split at hif
    · next hcond =>
        injection hif with hif
        rw [← hif]
        exact ⟨hcond.1, hcond.2⟩
    · exact absurd hif (by simp)
  · rcases h with ⟨e1, _, e23, _, hif⟩
    split at hif
    · next hcond =>
        injection hif with hif
        rw [← hif]
        exact ⟨hcond.1, hcond.2⟩
    · exact absurd hif (by simp)
  · exact take_three_adjDistinct _ _ _ _ g1.1 g1.2.1 g1.2.2 e h
  · exact take_three_adjDistinct _ _ _ _ g2.1 g2.2.1 g2.2.2 e h
  · exact take_three_adjDistinct _ _ _ _ g3.1 g3.2.1 g3.2.2 e h

/-- C2 amended: when every hold-classified key has a duplicate-free
modifier list of at most two modifiers that does not contain its base key,
the held resolver's output never contains a triple with identical first
and second keys or identical second and third keys; without that regime
(duplicate modifier lists, a base key among the modifiers, or three or
more modifiers) the unfiltered take-three expansion can emit adjacent
duplicates. -/
theorem hold_no_adjacent_duplicates (cfg : SplitModifiersConfig)
    (L : Layout) (v : TrigramIndicesVec) (hL : GoodHoldMods L) :
    ∀ t ∈ keysOf (process_hold_layers cfg v L),
      t.1 ≠ t.2.1 ∧ t.2.1 ≠ t.2.2 := by
  suffices h : ∀ (u : TrigramIndicesVec) (m : TrigramIndices),
      (∀ t ∈ keysOf m, adjDistinct t) →
      ∀ t ∈ keysOf (u.foldl (fun m entry =>
        accumulate m (holdCandidates cfg L entry)) m), adjDistinct t by
    intro t ht
    exact h v [] (by simp [keysOf]) t ht
  intro u
  induction u with
  | nil => intro m hm t ht; exact hm t ht
  | cons entry rest ih =>
      intro m hm t ht
      refine ih (accumulate m (holdCandidates cfg L entry)) ?_ t ht
      intro t2 ht2
      rcases mem_keysOf_accumulate ht2 with h2 | h2
      · exact hm t2 h2
      · rcases List.mem_map.mp h2 with ⟨e, he, hte⟩
        rw [← hte]
        exact holdCandidates_adjDistinct cfg L hL entry e he

/-- C2 amended witness: the triple (5, 7, 8), present in the held
resolver's output for the two-distinct-modifier layout, has distinct
adjacent keys. -/
theorem hold_no_adjacent_duplicates_witness :
    ((5 : K), (7 : K), (8 : K)).1 ≠ ((5 : K), (7 : K), (8 : K)).2.1 ∧
    ((5 : K), (7 : K), (8 : K)).2.1 ≠ ((5 : K), (7 : K), (8 : K)).2.2 :=
  hold_no_adjacent_duplicates cfgHalf twoModHoldLayout [((1, 7, 8), 1)]
    (by
      intro k mods h
      by_cases hk : k = 1
      · subst hk
        rw [show (twoModHoldLayout.layerkey 1).modifiers =
          LayerModifiers.hold [5, 6] from rfl] at h
        injection h with h2
        cases h2
        exact ⟨by decide, by decide, by decide⟩
      · have hnm : (twoModHoldLayout.layerkey k).modifiers =
            LayerModifiers.nomods := by
          simp [twoModHoldLayout, hk]
        rw [hnm] at h
        exact LayerModifiers.noConfusion h)
    (5, 7, 8) (by decide)

/-- Translation ignores the capability flags. -/
theorem map_trigrams_withFlags (tg : Trigrams) (L : Layout) (ex : Bool)
    (b1 b2 b3 : Bool) :
    map_trigrams tg (withFlags L b1 b2 b3) ex = map_trigrams tg L ex := by
  induction tg with
  | nil => rfl
  | cons e rest ih =>
      obtain ⟨⟨c1, c2, c3⟩, w⟩ := e
      simp only [map_trigrams, ih]
      rfl

/-- The flag projections of a flag-replaced layout are the replaced
flags. -/
theorem withFlags_one_shot (L : Layout) (b1 b2 b3 : Bool) :
    (withFlags L b1 b2 b3).has_one_shot_layers = b1 := rfl

/-- The hold flag projection of a flag-replaced layout. -/
theorem withFlags_hold (L : Layout) (b1 b2 b3 : Bool) :
    (withFlags L b1 b2 b3).has_hold_layers = b2 := rfl

/-- The lock flag projection of a flag-replaced layout. -/
theorem withFlags_lock (L : Layout) (b1 b2 b3 : Bool) :
    (withFlags L b1 b2 b3).has_lock_layers = b3 := rfl

/-- With no one-shot-classified keys the one-shot pass returns its input
unchanged. -/
theorem process_one_shot_id (L : Layout) (v : TrigramIndicesVec)
    (h : ∀ k : K, ¬((L.layerkey k).modifiers.isOneShot = true)) :
    process_one_shot_layers v L = v := by
  have hseq : ∀ k : K, oneShotKeySeq L k = [k] := by
    intro k
    cases hm : (L.layerkey k).modifiers with
    | oneShot mods => exact absurd (by rw [hm]; rfl) (h k)
    | nomods => simp [oneShotKeySeq, Layout.resolve_modifiers, hm]
    | hold mods => simp [oneShotKeySeq, Layout.resolve_modifiers, hm]
    | lock mods => simp [oneShotKeySeq, Layout.resolve_modifiers, hm]
  induction v with
  | nil => rfl
  | cons e rest ih =>
      simp only [process_one_shot_layers, List.flatMap_cons] at ih ⊢
      rw [hseq, hseq, hseq]
      simp only [List.singleton_append, List.cons_append, List.nil_append]
      rw [ih]
      simp [windows3]

/-- Folding a pass whose per-entry merge list is the entry itself is plain
insert-or-add accumulation. -/
theorem foldl_accumulate_singleton
    (f : ((K × K × K) × W) → List ((K × K × K) × W))
    (v : List ((K × K × K) × W)) (m : TrigramIndices)
    (hf : ∀ e ∈ v, f e = [e]) :
    v.foldl (fun acc e => accumulate acc (f e)) m = accumulate m v := by
  induction v generalizing m with
  | nil => rfl
  | cons e rest ih =>
      simp only [List.foldl_cons]
      rw [hf e (by simp)]
      have hstep : accumulate m [e] = insertOrAddWeight m e.1 e.2 := rfl
      rw [hstep]
      have hrec : accumulate m (e :: rest) =
          accumulate (insertOrAddWeight m e.1 e.2) rest := rfl
      rw [hrec]
      exact ih (insertOrAddWeight m e.1 e.2) (fun x hx => hf x (by simp [hx]))

/-- With no lock-classified keys the lock pass merges every entry
unchanged, so on a duplicate-free accumulator it is the identity. -/
theorem process_lock_id (L : Layout) (m : TrigramIndices)
    (h : ∀ k : K, ¬((L.layerkey k).modifiers.isLock = true))
    (hnd : (keysOf m).Nodup) :
    process_lock_layers m L = m := by
  have hins : ∀ entry : (K × K × K) × W,
      lockEntryInsertions L entry = [entry] := by
    intro entry
    simp only [lockEntryInsertions]
    rw [if_pos ⟨h entry.1.1, h entry.1.2.1, h entry.1.2.2⟩]
  have hfold : process_lock_layers m L = accumulate [] m :=
    foldl_accumulate_singleton (lockEntryInsertions L) m [] (fun e _ => hins e)
  rw [hfold, accumulate_of_nodup (by simpa [keysOf] using hnd)]
  simp

/-- With no hold-classified keys, an entry with distinct adjacent keys is
its own single candidate in the held resolver. -/
theorem holdCandidates_nomods (cfg : SplitModifiersConfig) (L : Layout)
    (entry : (K × K × K) × W)
    (hmods : ∀ k : K, (L.layerkey k).modifiers = .nomods)
    (hadj : adjDistinct entry.1) :
    holdCandidates cfg L entry = [entry] := by
  have hkm : ∀ k : K, holdKeyMods L k = (k, []) := by
    intro k
    simp [holdKeyMods, Layout.resolve_modifiers, hmods k]
  simp [holdCandidates, hkm, take_one_layerkey, take_two_layerkey,
    take_two_aux, take_three_pushes, take_three_aux, hadj.1, hadj.2]

/-- C4 amended: on a layout with no modifier-classified keys at all, the
orchestrated passes leave the translated list untouched for every setting
of the three capability flags — hence forcing any flag on or off yields the
same accumulator and not-found weight — provided the translated list has no
triple with identical adjacent keys and no duplicate triples; the forced-on
held pass drops adjacent-identical triples and sums duplicates where the
skipped branch overwrites them, so those two provisos are necessary. -/
theorem capability_skip_identity (cfg : SplitModifiersConfig)
    (tg : Trigrams) (ex : Bool) (L : Layout) (b1 b2 b3 : Bool)
    (hmods : ∀ k : K, (L.layerkey k).modifiers = .nomods)
    (hadj : ∀ e ∈ (map_trigrams tg L ex).1, adjDistinct e.1)
    (hnd : (keysOf (map_trigrams tg L ex).1).Nodup) :
    layerkey_indices cfg tg (withFlags L b1 b2 b3) ex =
      map_trigrams tg L ex := by
  have hmt := map_trigrams_withFlags tg L ex b1 b2 b3
  have hone : process_one_shot_layers (map_trigrams tg L ex).1
      (withFlags L b1 b2 b3) = (map_trigrams tg L ex).1 :=
    process_one_shot_id _ _ (fun k => by
      rw [show (withFlags L b1 b2 b3).layerkey = L.layerkey from rfl,
        hmods k]
      simp [LayerModifiers.isOneShot])
  have hhold : process_hold_layers cfg (map_trigrams tg L ex).1
      (withFlags L b1 b2 b3) = (map_trigrams tg L ex).1 := by
    have hcands : ∀ e ∈ (map_trigrams tg L ex).1,
        holdCandidates cfg (withFlags L b1 b2 b3) e = [e] := by
      intro e he
      exact holdCandidates_nomods cfg (withFlags L b1 b2 b3) e
        (fun k => by
          rw [show (withFlags L b1 b2 b3).layerkey = L.layerkey from rfl]
          exact hmods k)
        (hadj e he)
    have hfold : process_hold_layers cfg (map_trigrams tg L ex).1
        (withFlags L b1 b2 b3) =
        accumulate [] (map_trigrams tg L ex).1 :=
      foldl_accumulate_singleton
        (holdCandidates cfg (withFlags L b1 b2 b3))
        (map_trigrams tg L ex).1 [] hcands
    rw [hfold, accumulate_of_nodup (by simpa [keysOf] using hnd)]
    simp
  have hcollect : collectMap (map_trigrams tg L ex).1 =
      (map_trigrams tg L ex).1 := collectMap_of_nodup hnd
  have hlock : process_lock_layers (map_trigrams tg L ex).1
      (withFlags L b1 b2 b3) = (map_trigrams tg L ex).1 :=
    process_lock_id _ _ (fun k => by
      rw [show (withFlags L b1 b2 b3).layerkey = L.layerkey from rfl,
        hmods k]
      simp [LayerModifiers.isLock]) hnd
  simp only [layerkey_indices, hmt]
  cases b1 <;> cases b2 <;> cases b3 <;>
    by_cases hen : cfg.enabled = true <;>
      simp [withFlags_one_shot, withFlags_hold, withFlags_lock, hen, hone,
        hhold, hcollect, hlock, Prod.mk.eta]

/-- C4 counterexample: on the modifier-free layout, forcing the
hold-layer capability flag on changes the result for the trigram
(a, a, b): the forced-on held pass drops the adjacent-identical key triple
that the skipped branch keeps. -/
theorem capability_skip_counterexample :
    layerkey_indices cfgHalf [(('a', 'a', 'b'), 1)]
        (withFlags plainLayout false true false) true ≠
      layerkey_indices cfgHalf [(('a', 'a', 'b'), 1)]
        (withFlags plainLayout false false false) true := by
  decide

/-- C4 amended witness: on the modifier-free layout, the trigram
(a, b, a) translates to the adjacent-distinct triple (1, 2, 1) and all
three passes forced on return exactly the translated list and not-found
weight. -/
theorem capability_skip_identity_witness :
    layerkey_indices cfgHalf [(('a', 'b', 'a'), 1)]
        (withFlags plainLayout true true true) true =
      map_trigrams [(('a', 'b', 'a'), 1)] plainLayout true :=
  capability_skip_identity cfgHalf [(('a', 'b', 'a'), 1)] true plainLayout
    true true true (fun _ => rfl) (by decide) (by decide)
